import Mathlib

/-!
Verification of the `replace_alerts.py` source rewriter.

The script is embedded shallowly over `List Char`:
strings become character lists, `str.split('\n')` becomes `splitOnNl`,
`'\n'.join` becomes `joinNl`, Python's substring test `in` becomes
`containsSub`, `str.replace` becomes `replaceAll` (all occurrences,
leftmost, non-overlapping), and the argument-extraction regex
`alert\((.*?)\);?` becomes `findAlertMsg` (leftmost occurrence of
"alert(" that is followed by a ")" on the line; the captured group is
the text up to the first ")").  `str.lower` is embedded with
`Char.toLower`, which covers the ASCII range; every keyword the script
compares against is ASCII.  The filesystem effects of `process_file`
and `main` are modelled by an explicit record of file contents and
read/write permissions, with the printed lines collected in a list.
-/

namespace ReplaceAlerts

/-- The pattern `alert(` that triggers a rewrite. -/
def alertPat : List Char := "alert(".toList

/-- The guard pattern `// alert(` whose presence anywhere in a line
makes the script skip the whole line. -/
def commentPat : List Char := "// alert(".toList

/-- Success keywords from `replace_alerts.py` line 54. -/
def success_keywords : List (List Char) :=
  ["success", "updated", "saved", "created", "posted", "submitted",
   "copied", "closed", "depreciated"].map (fun s => s.toList)

/-- `line.lower()` (ASCII case folding). -/
def lowerLine (l : List Char) : List Char := l.map Char.toLower

/-- Python's substring test `pat in l`. -/
def containsSub (pat : List Char) : List Char → Bool
  | [] => pat.isEmpty
  | c :: rest => pat.isPrefixOf (c :: rest) || containsSub pat rest

/-- `any(keyword in line.lower() for keyword in success_keywords)`
(line 68 of the source). -/
def is_success (line : List Char) : Bool :=
  success_keywords.any (fun k => containsSub k (lowerLine line))

/-- `'fail' in line.lower() or 'error' in line.lower() or 'warning' in line.lower()`
(line 69 of the source). -/
def is_error (line : List Char) : Bool :=
  containsSub "fail".toList (lowerLine line) ||
  containsSub "error".toList (lowerLine line) ||
  containsSub "warning".toList (lowerLine line)

/-- Replacement head `toast.success(`. -/
def toastSuccessHdr : List Char := "toast.success(".toList

/-- Replacement head `toast.error(`. -/
def toastErrorHdr : List Char := "toast.error(".toList

/-- Replacement head `toast.info(`. -/
def toastInfoHdr : List Char := "toast.info(".toList

/-- The head of the replacement call chosen by the if/elif/else at
lines 71-77 of the source. -/
def toastHdr (line : List Char) : List Char :=
  if is_success line && !(is_error line) then toastSuccessHdr
  else if is_error line then toastErrorHdr
  else toastInfoHdr

/-- The semantics of `re.search(r'alert\((.*?)\);?', line)`: scan for the
leftmost occurrence of `alert(` that is followed by some `)` on the
line; the captured group is everything up to the first such `)`.  When
an occurrence of `alert(` has no later `)`, no later occurrence can
have one either, so continuing the scan (as the regex engine does)
still yields `none`. -/
def findAlertMsg : List Char → Option (List Char)
  | [] => none
  | c :: rest =>
    if alertPat.isPrefixOf (c :: rest) then
      if (rest.drop 5).contains ')' then
        some ((rest.drop 5).takeWhile (fun d => d != ')'))
      else findAlertMsg rest
    else findAlertMsg rest

/-- Fuelled version of Python's `str.replace` (replace all leftmost
non-overlapping occurrences).  The fuel only serves to make the
recursion structural; `replaceAll` supplies enough fuel. -/
def replaceAllF (old new : List Char) : Nat → List Char → List Char
  | 0, l => l
  | _ + 1, [] => []
  | fuel + 1, c :: rest =>
    if old ≠ [] ∧ old.isPrefixOf (c :: rest) then
      new ++ replaceAllF old new fuel ((c :: rest).drop old.length)
    else
      c :: replaceAllF old new fuel rest

/-- `l.replace(old, new)` for nonempty `old`. -/
def replaceAll (old new l : List Char) : List Char :=
  replaceAllF old new l.length l

/-- `content.split('\n')` with Python semantics (`''.split('\n') = ['']`). -/
def splitOnNl : List Char → List (List Char)
  | [] => [[]]
  | c :: rest =>
    if c = '\n' then [] :: splitOnNl rest
    else
      match splitOnNl rest with
      | [] => [[c]]
      | l :: ls => (c :: l) :: ls

/-- `'\n'.join(lines)`. -/
def joinNl : List (List Char) → List Char
  | [] => []
  | [l] => l
  | l :: ls => l ++ '\n' :: joinNl ls

/-- The per-line body of the loop at lines 60-83 of the source:
guard on `'alert(' in line and not '// alert(' in line`, extract the
argument, classify, and replace every occurrence of
`alert(<argument>)` by `toast.<severity>(<argument>)`. -/
def processLine (line : List Char) : List Char :=
  if containsSub alertPat line && !(containsSub commentPat line) then
    match findAlertMsg line with
    | some m => replaceAll (alertPat ++ m ++ [')']) (toastHdr line ++ m ++ [')']) line
    | none => line
  else line

/-- `replace_alerts(content)` from the source: split on newlines, map
the per-line transform, and rejoin with a single newline. -/
def replace_alerts (content : List Char) : List Char :=
  joinNl ((splitOnNl content).map processLine)

/-! ### Embedding of `add_toast_import`

`re.finditer(r'^import\s+.*?;$', content, re.MULTILINE)` admits the
following closed description.  A match starts at a line-start position
`i` where the literal `import` is followed by at least one whitespace
character; `\s+` greedily takes the maximal whitespace run; then
`.*?;$` succeeds exactly when the `\n`-free segment that starts right
after the run is nonempty and ends in `;` (since `$` only matches at a
line end, laziness and backtracking cannot move the endpoint: any
shorter whitespace split either crosses a newline with `.` or puts the
final `;` out of reach, because a whitespace run contains no `;`).
The match ends right after that `;`.  `\s` is embedded with the ASCII
whitespace class; every file this script targets is ASCII at the
relevant positions. -/

/-- The ASCII whitespace characters matched by `\s`. -/
def isPySpace (c : Char) : Bool :=
  c = ' ' || c = '\t' || c = '\n' || c = '\r' || c = '\x0B' || c = '\x0C'

/-- The literal `import`. -/
def importKw : List Char := "import".toList

/-- Length of the maximal whitespace run following `import` at `i`. -/
def wsLen (s : List Char) (i : Nat) : Nat :=
  ((s.drop (i + 6)).takeWhile isPySpace).length

/-- The newline-free segment of `s` starting at position `k`. -/
def lineSeg (s : List Char) (k : Nat) : List Char :=
  (s.drop k).takeWhile (fun c => c != '\n')

/-- End position of a match of `import\s+.*?;$` starting at `i`, if any. -/
def matchEndAt (s : List Char) (i : Nat) : Option Nat :=
  if importKw.isPrefixOf (s.drop i) then
    if wsLen s i = 0 then none
    else if (lineSeg s (i + 6 + wsLen s i)).getLast? = some ';' then
      some (i + 6 + wsLen s i + (lineSeg s (i + 6 + wsLen s i)).length)
    else none
  else none

/-- The multiline anchor `^`: start of string or right after a newline. -/
def lineStartAt (s : List Char) (i : Nat) : Bool :=
  i == 0 || s[i - 1]? == some '\n'

/-- Fuelled scan of `re.finditer`: leftmost matches, non-overlapping,
resuming right after each match. -/
def scanImportsF (s : List Char) : Nat → Nat → List (Nat × Nat)
  | 0, _ => []
  | fuel + 1, p =>
    if p ≤ s.length then
      match (if lineStartAt s p then matchEndAt s p else none) with
      | some e => (p, e) :: scanImportsF s fuel e
      | none => scanImportsF s fuel (p + 1)
    else []

/-- All `(start, end)` pairs of matches of the import pattern from
position `p` on. -/
def scanImports (s : List Char) (p : Nat) : List (Nat × Nat) :=
  scanImportsF s (s.length + 1 - p) p

/-- The substring test at line 32 of the source, covering the two
accepted toast-import spellings. -/
def hasToastImport (content : List Char) : Bool :=
  containsSub "import \x7b toast \x7d".toList content ||
  containsSub "import toast".toList content

/-- The text inserted after the last import statement (line 42). -/
def toastImportIns : List Char :=
  "\nimport \x7b toast \x7d from \x27../shared/utils/toast\x27;".toList

/-- `add_toast_import(content)` from the source. -/
def add_toast_import (content : List Char) : List Char :=
  if hasToastImport content then content
  else
    match (scanImports content 0).getLast? with
    | some q => content.take q.2 ++ toastImportIns ++ content.drop q.2
    | none => content

/-! ### Model of the filesystem effects of `process_file` and `main` -/

/-- A filesystem: contents plus read/write permissions per path.
`os.path.exists` is `(files p).isSome`; a read raises when the file is
missing or unreadable; a write raises when the path is unwritable and
otherwise replaces the content. -/
structure FileSys where
  files : String → Option (List Char)
  canRead : String → Bool
  canWrite : String → Bool

/-- `open(p).read()`: `some` content, or `none` when the call raises. -/
def readFile (fs : FileSys) (p : String) : Option (List Char) :=
  match fs.files p with
  | some c => if fs.canRead p then some c else none
  | none => none

/-- `open(p, 'w').write(c)`: the updated filesystem, or `none` when the
call raises (the filesystem is then unchanged). -/
def writeFile (fs : FileSys) (p : String) (c : List Char) : Option FileSys :=
  if fs.canWrite p then
    some { files := fun q => if q = p then some c else fs.files q,
           canRead := fs.canRead, canWrite := fs.canWrite }
  else none

/-- The `✓ Processed:` line. -/
def okLine (p : String) : List Char := "✓ Processed: ".toList ++ p.toList

/-- The `✗ Error processing` line (the Python message text of the caught
exception is abstracted). -/
def errLine (p : String) (msg : List Char) : List Char :=
  "✗ Error processing ".toList ++ p.toList ++ ": ".toList ++ msg

/-- The `✗ File not found:` line. -/
def notFoundLine (p : String) : List Char := "✗ File not found: ".toList ++ p.toList

/-- The banner printed at the start of `main`. -/
def startLine : List Char := "Starting alert to toast replacement...".toList

/-- `process_file(filepath)` from the source: read, transform in memory
(import insertion then call-site replacement), write back; any caught
error yields `False`, a log line naming the path, and an unchanged
filesystem. -/
def process_file (fs : FileSys) (p : String) : Bool × FileSys × List Char :=
  match readFile fs p with
  | none => (false, fs, errLine p "read failed".toList)
  | some c =>
    match writeFile fs p (replace_alerts (add_toast_import c)) with
    | none => (false, fs, errLine p "write failed".toList)
    | some fs2 => (true, fs2, okLine p)

/-- The hard-coded target list (lines 11-28 of the source). -/
def files_to_update : List String := [
  "/Users/buntha/Documents/AI/ds-advance/components/customer/CustomerDashboard.tsx",
  "/Users/buntha/Documents/AI/ds-advance/components/customer/TrackingTimeline.tsx",
  "/Users/buntha/Documents/AI/ds-advance/components/customer/CustomerProfile.tsx",
  "/Users/buntha/Documents/AI/ds-advance/components/fixed_assets/AssetCategoryForm.tsx",
  "/Users/buntha/Documents/AI/ds-advance/components/fixed_assets/AssetForm.tsx",
  "/Users/buntha/Documents/AI/ds-advance/components/fixed_assets/FixedAssetsDashboard.tsx",
  "/Users/buntha/Documents/AI/ds-advance/components/closing/ClosingDashboard.tsx",
  "/Users/buntha/Documents/AI/ds-advance/components/UserList.tsx",
  "/Users/buntha/Documents/AI/ds-advance/components/staff/StaffLoansDashboard.tsx",
  "/Users/buntha/Documents/AI/ds-advance/components/staff/EmployeeList.tsx",
  "/Users/buntha/Documents/AI/ds-advance/components/payables/VendorList.tsx",
  "/Users/buntha/Documents/AI/ds-advance/components/wallet/WalletDashboard.tsx",
  "/Users/buntha/Documents/AI/ds-advance/components/setup/OnboardingWizard.tsx",
  "/Users/buntha/Documents/AI/ds-advance/components/LandingPage.tsx",
  "/Users/buntha/Documents/AI/ds-advance/components/banking/WalletRequests.tsx",
  "/Users/buntha/Documents/AI/ds-advance/src/app/views/JournalView.tsx"]

/-- One iteration of the loop in `main`: skip (with a log line) paths
that do not exist, otherwise process the file and count a success. -/
def runStep (st : Nat × FileSys × List (List Char)) (p : String) :
    Nat × FileSys × List (List Char) :=
  if (st.2.1.files p).isSome then
    (st.1 + (if (process_file st.2.1 p).1 then 1 else 0),
      (process_file st.2.1 p).2.1,
      st.2.2 ++ [(process_file st.2.1 p).2.2])
  else (st.1, st.2.1, st.2.2 ++ [notFoundLine p])

/-- The final summary line `Completed! Processed X/N files`. -/
def summaryLine (x n : Nat) : List Char :=
  "\nCompleted! Processed ".toList ++ (Nat.repr x).toList ++ "/".toList
    ++ (Nat.repr n).toList ++ " files".toList

/-- The loop of `main` over an arbitrary path list. -/
def mainRun (fs : FileSys) (paths : List String) : Nat × FileSys × List (List Char) :=
  paths.foldl runStep (0, fs, [startLine])

/-- Everything `main` prints when run over `paths`. -/
def mainOutput (fs : FileSys) (paths : List String) : List (List Char) :=
  (mainRun fs paths).2.2 ++ [summaryLine (mainRun fs paths).1 paths.length]

/-- `main()` from the source: output lines and final filesystem over the
compiled-in file list. -/
def main (fs : FileSys) : List (List Char) × FileSys :=
  (mainOutput fs files_to_update, (mainRun fs files_to_update).2.1)

/-- A read-only filesystem with a single file, used as a witness. -/
def roFS : FileSys :=
  { files := fun p => if p = "/a" then some "x".toList else none,
    canRead := fun _ => true, canWrite := fun _ => false }

/-- An empty filesystem, used as a witness. -/
def emptyFS : FileSys :=
  { files := fun _ => none, canRead := fun _ => true, canWrite := fun _ => true }

/-! ### Basic facts about the string utilities -/

theorem containsSub_iff {pat : List Char} :
    ∀ {l : List Char}, containsSub pat l = true ↔ ∃ j, pat <+: l.drop j := by
  intro l
  induction l with
  | nil =>
    simp [containsSub, List.isEmpty_iff]
  | cons c rest ih =>
    simp only [containsSub, Bool.or_eq_true, List.isPrefixOf_iff_prefix, ih]
    constructor
    · rintro (h | ⟨j, hj⟩)
      · exact ⟨0, h⟩
      · exact ⟨j + 1, by simpa using hj⟩
    · rintro ⟨j, hj⟩
      cases j with
      | zero => exact Or.inl (by simpa using hj)
      | succ j => exact Or.inr ⟨j, by simpa using hj⟩

theorem isInfix_of_prefix_drop {pat l : List Char} {j : Nat} (h : pat <+: l.drop j) :
    pat <:+: l := by
  obtain ⟨t, ht⟩ := h
  exact ⟨l.take j, t, by rw [List.append_assoc, ht, List.take_append_drop]⟩

theorem infix_exists_drop {pat l : List Char} (h : pat <:+: l) :
    ∃ j, pat <+: l.drop j := by
  obtain ⟨s, t, hst⟩ := h
  exact ⟨s.length, ⟨t, by rw [← hst, List.append_assoc, List.drop_left]⟩⟩

theorem containsSub_iff_isInfix {pat l : List Char} :
    containsSub pat l = true ↔ pat <:+: l := by
  rw [containsSub_iff]
  exact ⟨fun ⟨_, hj⟩ => isInfix_of_prefix_drop hj, infix_exists_drop⟩

theorem prefix_split {p a b : List Char} (h : p <+: a ++ b) :
    p <+: a ∨ (a <+: p ∧ p.drop a.length <+: b) := by
  rcases List.prefix_or_prefix_of_prefix h (List.prefix_append a b) with h1 | h2
  · exact Or.inl h1
  · refine Or.inr ⟨h2, ?_⟩
    obtain ⟨r, hr⟩ := h2
    subst hr
    rw [List.drop_left]
    exact (List.prefix_append_right_inj a).mp h

/-! ### Unfolding lemmas for `replaceAll` -/

theorem replaceAllF_fuel {old new : List Char} :
    ∀ (f f' : Nat) (l : List Char), l.length ≤ f → l.length ≤ f' →
      replaceAllF old new f l = replaceAllF old new f' l := by
  intro f
  induction f with
  | zero =>
    intro f' l hf _
    have : l = [] := List.length_eq_zero.mp (Nat.le_zero.mp hf)
    subst this
    cases f' <;> rfl
  | succ f ih =>
    intro f' l _ hf'
    match l, f' with
    | [], 0 => rfl
    | [], f' + 1 => rfl
    | c :: rest, 0 => simp at hf'
    | c :: rest, f' + 1 =>
      simp only [replaceAllF]
      by_cases h : old ≠ [] ∧ old.isPrefixOf (c :: rest)
      · rw [if_pos h, if_pos h]
        have hlen : ((c :: rest).drop old.length).length ≤ rest.length := by
          have : 1 ≤ old.length := by
            cases old with
            | nil => exact absurd rfl h.1
            | cons _ _ => simp
          simp only [List.length_drop, List.length_cons]
          omega
        have h1 : ((c :: rest).drop old.length).length ≤ f := by
          simp only [List.length_cons] at *
          omega
        have h2 : ((c :: rest).drop old.length).length ≤ f' := by
          simp only [List.length_cons] at hf'
          omega
        rw [ih _ _ h1 h2]
      · rw [if_neg h, if_neg h]
        have h1 : rest.length ≤ f := by
          simp only [List.length_cons] at *
          omega
        have h2 : rest.length ≤ f' := by
          simp only [List.length_cons] at hf'
          omega
        rw [ih _ _ h1 h2]

theorem replaceAll_cons_pos {old new : List Char} {c : Char} {rest : List Char}
    (h1 : old ≠ []) (h2 : old <+: c :: rest) :
    replaceAll old new (c :: rest) = new ++ replaceAll old new ((c :: rest).drop old.length) := by
  have hcond : old ≠ [] ∧ old.isPrefixOf (c :: rest) :=
    ⟨h1, List.isPrefixOf_iff_prefix.mpr h2⟩
  show replaceAllF old new (c :: rest).length (c :: rest) = _
  rw [List.length_cons, replaceAllF, if_pos hcond]
  congr 1
  apply replaceAllF_fuel
  · have : 1 ≤ old.length := by
      cases old with
      | nil => exact absurd rfl h1
      | cons _ _ => simp
    simp only [List.length_drop, List.length_cons]
    omega
  · exact le_rfl

theorem replaceAll_cons_neg {old new : List Char} {c : Char} {rest : List Char}
    (h2 : ¬ old <+: c :: rest) :
    replaceAll old new (c :: rest) = c :: replaceAll old new rest := by
  have hcond : ¬ (old ≠ [] ∧ old.isPrefixOf (c :: rest)) := by
    rintro ⟨_, hp⟩
    exact h2 (List.isPrefixOf_iff_prefix.mp hp)
  show replaceAllF old new (c :: rest).length (c :: rest) = _
  rw [List.length_cons, replaceAllF, if_neg hcond]
  rfl

theorem replaceAll_no_occ {old new : List Char} :
    ∀ {l : List Char}, (∀ j, ¬ old <+: l.drop j) → replaceAll old new l = l := by
  intro l
  induction l with
  | nil => intro _; rfl
  | cons c rest ih =>
    intro h
    rw [replaceAll_cons_neg (by simpa using h 0)]
    rw [ih (fun j => by simpa using h (j + 1))]

theorem replaceAll_hit {old new : List Char} (hne : old ≠ []) :
    ∀ (pre : List Char) (suf : List Char),
      (∀ j, j < pre.length → ¬ old <+: (pre ++ old ++ suf).drop j) →
      replaceAll old new (pre ++ old ++ suf) = pre ++ new ++ replaceAll old new suf := by
  intro pre
  induction pre with
  | nil =>
    intro suf _
    obtain ⟨o, old', ho⟩ := List.exists_cons_of_ne_nil hne
    simp only [List.nil_append]
    rw [ho]
    rw [List.cons_append]
    rw [replaceAll_cons_pos (by simp [ho ▸ hne]) (by rw [← List.cons_append, ← ho]; exact List.prefix_append old suf)]
    rw [← List.cons_append, ← ho, List.drop_left]
  | cons c pre' ih =>
    intro suf h
    have h0 : ¬ old <+: c :: (pre' ++ old ++ suf) := by
      have := h 0 (by simp)
      simpa using this
    simp only [List.cons_append, List.append_assoc] at *
    rw [replaceAll_cons_neg h0]
    rw [ih suf (fun j hj => by simpa using h (j + 1) (by simpa using hj))]

theorem mem_replaceAllF {old new : List Char} {ch : Char} :
    ∀ (f : Nat) (l : List Char), ch ∈ replaceAllF old new f l → ch ∈ l ∨ ch ∈ new := by
  intro f
  induction f with
  | zero => intro l h; exact Or.inl h
  | succ f ih =>
    intro l h
    match l with
    | [] => simp [replaceAllF] at h
    | c :: rest =>
      rw [replaceAllF] at h
      by_cases hc : old ≠ [] ∧ old.isPrefixOf (c :: rest)
      · rw [if_pos hc] at h
        rcases List.mem_append.mp h with h1 | h2
        · exact Or.inr h1
        · rcases ih _ h2 with h3 | h3
          · exact Or.inl (List.drop_subset _ _ h3)
          · exact Or.inr h3
      · rw [if_neg hc] at h
        rcases List.mem_cons.mp h with h1 | h2
        · exact Or.inl (h1 ▸ List.mem_cons_self c rest)
        · rcases ih _ h2 with h3 | h3
          · exact Or.inl (List.mem_cons_of_mem c h3)
          · exact Or.inr h3

theorem mem_replaceAll {old new l : List Char} {ch : Char}
    (h : ch ∈ replaceAll old new l) : ch ∈ l ∨ ch ∈ new :=
  mem_replaceAllF l.length l h

/-! ### Facts about `splitOnNl` and `joinNl` -/

theorem splitOnNl_ne_nil (s : List Char) : splitOnNl s ≠ [] := by
  induction s with
  | nil => simp [splitOnNl]
  | cons c rest ih =>
    by_cases hc : c = '\n'
    · simp [splitOnNl, hc]
    · rw [splitOnNl, if_neg hc]
      rcases h : splitOnNl rest with _ | ⟨l, ls⟩
      · exact absurd h ih
      · simp

theorem splitOnNl_no_nl {s : List Char} : ∀ l ∈ splitOnNl s, '\n' ∉ l := by
  induction s with
  | nil =>
    intro l hl
    simp [splitOnNl] at hl
    simp [hl]
  | cons c rest ih =>
    intro l hl
    by_cases hc : c = '\n'
    · rw [splitOnNl, if_pos hc] at hl
      rcases List.mem_cons.mp hl with h1 | h2
      · simp [h1]
      · exact ih l h2
    · rw [splitOnNl, if_neg hc] at hl
      obtain ⟨l0, ls, h0⟩ := List.exists_cons_of_ne_nil (splitOnNl_ne_nil rest)
      rw [h0] at hl
      rcases List.mem_cons.mp hl with h1 | h2
      · subst h1
        intro hmem
        rcases List.mem_cons.mp hmem with h3 | h4
        · exact hc h3.symm
        · exact ih l0 (h0 ▸ List.mem_cons_self l0 ls) h4
      · exact ih l (h0 ▸ List.mem_cons_of_mem l0 h2)

theorem splitOnNl_single {l : List Char} (h : '\n' ∉ l) : splitOnNl l = [l] := by
  induction l with
  | nil => rfl
  | cons c rest ih =>
    have hc : c ≠ '\n' := fun hc => h (hc ▸ List.mem_cons_self c rest)
    rw [splitOnNl, if_neg hc, ih (fun hm => h (List.mem_cons_of_mem c hm))]

theorem splitOnNl_append_nl {l : List Char} (h : '\n' ∉ l) :
    ∀ r, splitOnNl (l ++ '\n' :: r) = l :: splitOnNl r := by
  induction l with
  | nil => intro r; simp [splitOnNl]
  | cons c rest ih =>
    intro r
    have hc : c ≠ '\n' := fun hc => h (hc ▸ List.mem_cons_self c rest)
    rw [List.cons_append, splitOnNl, if_neg hc,
      ih (fun hm => h (List.mem_cons_of_mem c hm)) r]

theorem split_join :
    ∀ {ls : List (List Char)}, ls ≠ [] → (∀ l ∈ ls, '\n' ∉ l) →
      splitOnNl (joinNl ls) = ls := by
  intro ls
  induction ls with
  | nil => intro h _; exact absurd rfl h
  | cons l ls ih =>
    intro _ hnl
    cases ls with
    | nil => exact splitOnNl_single (hnl l (List.mem_cons_self l []))
    | cons l' ls' =>
      rw [show joinNl (l :: l' :: ls') = l ++ '\n' :: joinNl (l' :: ls') from rfl,
        splitOnNl_append_nl (hnl l (List.mem_cons_self _ _))]
      rw [ih (List.cons_ne_nil _ _) (fun x hx => hnl x (List.mem_cons_of_mem l hx))]

/-! ### Facts about `findAlertMsg` -/

theorem alertPat_ne_nil : alertPat ≠ [] := by decide

theorem prefix_extend {p a b : List Char} (h : p <+: a) : p <+: a ++ b :=
  h.trans (List.prefix_append a b)

theorem findAlertMsg_cons (c : Char) (rest : List Char) :
    findAlertMsg (c :: rest) =
      if alertPat.isPrefixOf (c :: rest) then
        if (rest.drop 5).contains ')' then
          some ((rest.drop 5).takeWhile (fun d => d != ')'))
        else findAlertMsg rest
      else findAlertMsg rest := by
  rw [findAlertMsg]

theorem findAlertMsg_skip :
    ∀ (pre rest : List Char),
      (∀ j, j < pre.length → ¬ alertPat <+: (pre ++ rest).drop j) →
      findAlertMsg (pre ++ rest) = findAlertMsg rest := by
  intro pre
  induction pre with
  | nil => intro rest _; rfl
  | cons c pre' ih =>
    intro rest h
    rw [List.cons_append, findAlertMsg_cons]
    have h0 : ¬ alertPat <+: c :: (pre' ++ rest) := by
      have := h 0 (by simp)
      simpa using this
    rw [if_neg (fun hp => h0 (List.isPrefixOf_iff_prefix.mp hp))]
    exact ih rest (fun j hj => by simpa using h (j + 1) (by simpa using hj))

theorem findAlertMsg_at {m : List Char} (hm : ')' ∉ m) (suf : List Char) :
    findAlertMsg (alertPat ++ (m ++ ')' :: suf)) = some m := by
  rw [show alertPat ++ (m ++ ')' :: suf)
      = 'a' :: ("lert(".toList ++ (m ++ ')' :: suf)) from rfl]
  rw [findAlertMsg_cons]
  rw [if_pos (List.isPrefixOf_iff_prefix.mpr
    (show alertPat <+: 'a' :: ("lert(".toList ++ (m ++ ')' :: suf)) from
      List.prefix_append alertPat _))]
  rw [List.drop_left' (show ("lert(".toList).length = 5 from rfl)]
  rw [if_pos (by
    simp only [List.contains, List.elem_eq_mem, decide_eq_true_iff]
    exact List.mem_append.mpr (Or.inr (List.mem_cons_self _ _)))]
  congr 1
  rw [List.takeWhile_append_of_pos (fun a ha => by
    simp only [bne_iff_ne, ne_eq]
    exact fun hc => hm (hc ▸ ha))]
  rw [List.takeWhile_cons]
  simp

theorem findAlertMsg_some_shape :
    ∀ {line m : List Char}, findAlertMsg line = some m →
      ∃ pre suf, line = pre ++ (alertPat ++ (m ++ ')' :: suf)) ∧ ')' ∉ m := by
  intro line
  induction line with
  | nil => intro m h; exact absurd h (by simp [findAlertMsg])
  | cons c rest ih =>
    intro m h
    rw [findAlertMsg_cons] at h
    by_cases hp : alertPat.isPrefixOf (c :: rest)
    · rw [if_pos hp] at h
      by_cases hcont : (rest.drop 5).contains ')'
      · rw [if_pos hcont] at h
        have hmem : ')' ∈ rest.drop 5 := by
          simpa only [List.contains, List.elem_eq_mem, decide_eq_true_iff] using hcont
        have hm : m = (rest.drop 5).takeWhile (fun d => d != ')') := by
          injection h with h'
          exact h'.symm
        have hdw : (rest.drop 5).dropWhile (fun d => d != ')') ≠ [] := by
          intro hnil
          have := List.dropWhile_eq_nil_iff.mp hnil ')' hmem
          simp at this
        obtain ⟨d, dsuf, hd⟩ := List.exists_cons_of_ne_nil hdw
        have hdpar : d = ')' := by
          have := List.head?_dropWhile_not (fun d => d != ')') (rest.drop 5)
          rw [hd] at this
          simp only [List.head?_cons] at this
          simpa using this
        have hsplit : rest.drop 5 = m ++ ')' :: dsuf := by
          rw [hm]
          conv_lhs => rw [← List.takeWhile_append_dropWhile (fun d => d != ')') (rest.drop 5)]
          rw [hd, hdpar]
        have hshape : c :: rest = alertPat ++ (m ++ ')' :: dsuf) := by
          obtain ⟨t, ht⟩ := List.isPrefixOf_iff_prefix.mp hp
          have ht' : c :: rest = 'a' :: ("lert(".toList ++ t) := by
            rw [← ht]
            rfl
          have hc1 : c = 'a' := by injection ht'
          have hc2 : rest = "lert(".toList ++ t := by injection ht'
          have hrt : rest.drop 5 = t := by
            rw [hc2, List.drop_left' (show ("lert(".toList).length = 5 from rfl)]
          have ht2 : t = m ++ ')' :: dsuf := by rw [← hrt, hsplit]
          rw [hc1, hc2, ht2]
          rfl
        refine ⟨[], dsuf, by simpa using hshape, ?_⟩
        intro hmm
        have := List.mem_takeWhile_imp (hm ▸ hmm)
        simp at this
      · rw [if_neg hcont] at h
        obtain ⟨pre', suf, hsh, hnm⟩ := ih h
        exact ⟨c :: pre', suf, by rw [List.cons_append, hsh], hnm⟩
    · rw [if_neg hp] at h
      obtain ⟨pre', suf, hsh, hnm⟩ := ih h
      exact ⟨c :: pre', suf, by rw [List.cons_append, hsh], hnm⟩

/-! ### After a replacement, no occurrence of `alert(` is left on the line

`result_no_occ` below: when a line has exactly one occurrence of
`alert(` (at the start of the matched call `alert(<m>)`), replacing the
call by `<hdr><m>)` leaves a line with no occurrence of `alert(` at any
position — occurrences cannot hide inside the new text nor span any of
the boundaries. -/

theorem length_alertPat : alertPat.length = 6 := rfl

theorem result_no_occ
    (pre m suf hdr : List Char)
    (hlen : 11 ≤ hdr.length)
    (hhdr2 : containsSub alertPat hdr = false)
    (hhdr1 : ∀ i, i < hdr.length → ((hdr.drop i).isPrefixOf alertPat) = false)
    (hhdr4 : ∀ k, 1 ≤ k → k < 6 → ((alertPat.drop k).isPrefixOf hdr) = false)
    (huniq : ∀ j, alertPat <+: (pre ++ (alertPat ++ (m ++ ')' :: suf))).drop j → j = pre.length) :
    ∀ j, ¬ alertPat <+: (pre ++ ((hdr ++ (m ++ [')'])) ++ suf)).drop j := by
  have hhdr1' : ∀ i, i < hdr.length → ¬ (hdr.drop i <+: alertPat) := by
    intro i hi hp
    have h := List.isPrefixOf_iff_prefix.mpr hp
    rw [hhdr1 i hi] at h
    exact Bool.false_ne_true h
  have hhdr2' : ¬ alertPat <:+: hdr := by
    intro hinf
    have h := containsSub_iff_isInfix.mpr hinf
    rw [hhdr2] at h
    exact Bool.false_ne_true h
  have hhdr4' : ∀ k, 1 ≤ k → k < 6 → ¬ (alertPat.drop k <+: hdr) := by
    intro k h1 h2 hp
    have h := List.isPrefixOf_iff_prefix.mpr hp
    rw [hhdr4 k h1 h2] at h
    exact Bool.false_ne_true h
  have hm_noocc : ∀ j, ¬ alertPat <+: m.drop j := by
    intro j hj
    by_cases hjm : j ≤ m.length
    · have h1 : alertPat <+: (m ++ ')' :: suf).drop j := by
        rw [List.drop_append_of_le_length hjm]
        exact prefix_extend hj
      have h2 : alertPat <+:
          (pre ++ (alertPat ++ (m ++ ')' :: suf))).drop (pre.length + (alertPat.length + j)) := by
        rw [List.drop_append, List.drop_append]
        exact h1
      have h3 := huniq _ h2
      rw [length_alertPat] at h3
      omega
    · rw [List.drop_eq_nil_of_le (by omega)] at hj
      exact alertPat_ne_nil (List.prefix_nil.mp hj)
  intro j hj
  rcases Nat.lt_or_ge j pre.length with hcase1 | hge
  · -- the occurrence would start inside `pre`
    rw [List.drop_append_of_le_length (le_of_lt hcase1)] at hj
    rcases prefix_split hj with h1 | ⟨h2, h3⟩
    · have h4 : alertPat <+: (pre ++ (alertPat ++ (m ++ ')' :: suf))).drop j := by
        rw [List.drop_append_of_le_length (le_of_lt hcase1)]
        exact prefix_extend h1
      have := huniq j h4
      omega
    · have hk1 : 1 ≤ (pre.drop j).length := by
        rw [List.length_drop]
        omega
      have hk6 : (pre.drop j).length ≤ 6 := by
        have := h2.length_le
        rwa [length_alertPat] at this
      by_cases hkeq : (pre.drop j).length = 6
      · have he : pre.drop j = alertPat :=
          h2.eq_of_length_le (by rw [length_alertPat, hkeq])
        have h4 : alertPat <+: (pre ++ (alertPat ++ (m ++ ')' :: suf))).drop j := by
          rw [List.drop_append_of_le_length (le_of_lt hcase1), ← he]
          exact List.prefix_append _ _
        have := huniq j h4
        omega
      · have hrem_len : (alertPat.drop (pre.drop j).length).length = 6 - (pre.drop j).length := by
          rw [List.length_drop, length_alertPat]
        rcases prefix_split h3 with h4 | ⟨h5, _⟩
        · rcases prefix_split h4 with h6 | ⟨h7, _⟩
          · exact hhdr4' (pre.drop j).length hk1 (by omega) h6
          · have h8 := h7.length_le
            rw [hrem_len] at h8
            omega
        · have h8 := h5.length_le
          rw [hrem_len] at h8
          simp only [List.length_append, List.length_cons] at h8
          omega
  · -- the occurrence would start inside the rewritten tail
    have hj' : alertPat <+: ((hdr ++ (m ++ [')'])) ++ suf).drop (j - pre.length) := by
      rw [show j = pre.length + (j - pre.length) from (by omega)] at hj
      rwa [List.drop_append] at hj
    by_cases hi : j - pre.length < hdr.length
    · rw [List.append_assoc, List.drop_append_of_le_length (le_of_lt hi)] at hj'
      rcases prefix_split hj' with h1 | ⟨h2, _⟩
      · exact hhdr2' (isInfix_of_prefix_drop h1)
      · exact hhdr1' (j - pre.length) hi h2
    · have hi2' : alertPat <+: ((m ++ [')']) ++ suf).drop (j - pre.length - hdr.length) := by
        rw [List.append_assoc] at hj'
        rw [show j - pre.length = hdr.length + (j - pre.length - hdr.length) from (by omega)] at hj'
        rwa [List.drop_append] at hj'
      by_cases hi2 : j - pre.length - hdr.length ≤ m.length
      · rw [List.append_assoc, List.drop_append_of_le_length hi2] at hi2'
        rcases prefix_split hi2' with h1 | ⟨h2, h3⟩
        · exact hm_noocc _ h1
        · rcases hrem : alertPat.drop (m.drop (j - pre.length - hdr.length)).length with _ | ⟨r, rs⟩
          · have h4 : 6 ≤ (m.drop (j - pre.length - hdr.length)).length := by
              have h9 := congrArg List.length hrem
              rw [List.length_drop, length_alertPat] at h9
              simp only [List.length_nil] at h9
              omega
            have h5 : m.drop (j - pre.length - hdr.length) = alertPat :=
              h2.eq_of_length_le (by rw [length_alertPat]; exact h4)
            exact hm_noocc (j - pre.length - hdr.length) (by rw [h5])
          · rw [hrem] at h3
            have hr : r = ')' := by
              rw [show ([')'] : List Char) ++ suf = ')' :: suf from rfl] at h3
              exact (List.cons_prefix_cons.mp h3).1
            have hrmem : r ∈ alertPat := by
              have : r ∈ alertPat.drop (m.drop (j - pre.length - hdr.length)).length := by
                rw [hrem]
                exact List.mem_cons_self r rs
              exact List.drop_subset _ _ this
            rw [hr] at hrmem
            exact absurd hrmem (by decide)
      · have h1 : alertPat <+: suf.drop (j - pre.length - hdr.length - (m.length + 1)) := by
          rw [show j - pre.length - hdr.length
              = (m ++ [')']).length + (j - pre.length - hdr.length - (m.length + 1))
              from (by simp; omega)] at hi2'
          rwa [List.drop_append] at hi2'
        have h2 : alertPat <+: (pre ++ (alertPat ++ (m ++ ')' :: suf))).drop
            (pre.length + (alertPat.length + (m.length +
              (1 + (j - pre.length - hdr.length - (m.length + 1)))))) := by
          rw [List.drop_append, List.drop_append, List.drop_append]
          rw [Nat.add_comm 1 _, List.drop_succ_cons]
          exact h1
        have h3 := huniq _ h2
        rw [length_alertPat] at h3
        omega

/-! ### Facts about `processLine` -/

theorem toastHdr_cases (line : List Char) :
    toastHdr line = toastSuccessHdr ∨ toastHdr line = toastErrorHdr ∨
      toastHdr line = toastInfoHdr := by
  unfold toastHdr
  by_cases h1 : is_success line && !(is_error line)
  · rw [if_pos h1]
    exact Or.inl rfl
  · rw [if_neg h1]
    by_cases h2 : is_error line
    · rw [if_pos h2]
      exact Or.inr (Or.inl rfl)
    · rw [if_neg h2]
      exact Or.inr (Or.inr rfl)

theorem toastHdr_facts (line : List Char) :
    11 ≤ (toastHdr line).length ∧
    containsSub alertPat (toastHdr line) = false ∧
    (∀ i, i < (toastHdr line).length →
      (((toastHdr line).drop i).isPrefixOf alertPat) = false) ∧
    (∀ k, 1 ≤ k → k < 6 → ((alertPat.drop k).isPrefixOf (toastHdr line)) = false) ∧
    '\n' ∉ toastHdr line := by
  rcases toastHdr_cases line with h | h | h <;> rw [h] <;> exact (by decide)

theorem occ_lt_length {p l : List Char} {j : Nat} (hne : p ≠ []) (h : p <+: l.drop j) :
    j < l.length := by
  by_contra hge
  rw [List.drop_eq_nil_of_le (by omega)] at h
  exact hne (List.prefix_nil.mp h)

theorem processLine_guard_true {line m : List Char}
    (hg : containsSub alertPat line = true) (hnc : containsSub commentPat line = false)
    (hm : findAlertMsg line = some m) :
    processLine line
      = replaceAll (alertPat ++ m ++ [')']) (toastHdr line ++ m ++ [')']) line := by
  simp [processLine, hg, hnc, hm]

theorem processLine_none {line : List Char} (hm : findAlertMsg line = none) :
    processLine line = line := by
  unfold processLine
  split
  · rw [hm]
  · rfl

theorem processLine_skip {line : List Char}
    (hcond : (containsSub alertPat line && !(containsSub commentPat line)) = false) :
    processLine line = line := by
  simp [processLine, hcond]

/-- The fully rewritten form of a processed line: when the line has the
shape `pre ++ alert( ++ m ++ ) ++ suf` with a unique occurrence of
`alert(` and `)` not occurring in `m`, `processLine` yields
`pre ++ toast.<severity>( ++ m ++ ) ++ suf`. -/
theorem processLine_replaced
    (pre m suf : List Char)
    (hnc : containsSub commentPat (pre ++ (alertPat ++ (m ++ ')' :: suf))) = false)
    (hpm : ')' ∉ m)
    (huniq : ∀ j, alertPat <+: (pre ++ (alertPat ++ (m ++ ')' :: suf))).drop j → j = pre.length) :
    processLine (pre ++ (alertPat ++ (m ++ ')' :: suf)))
      = pre ++ ((toastHdr (pre ++ (alertPat ++ (m ++ ')' :: suf))) ++ (m ++ [')'])) ++ suf) := by
  have hg : containsSub alertPat (pre ++ (alertPat ++ (m ++ ')' :: suf))) = true := by
    rw [containsSub_iff]
    exact ⟨pre.length, by rw [List.drop_left]; exact List.prefix_append _ _⟩
  have hfind : findAlertMsg (pre ++ (alertPat ++ (m ++ ')' :: suf))) = some m := by
    rw [findAlertMsg_skip pre _ (fun j hj hp => by
      have := huniq j hp
      omega)]
    exact findAlertMsg_at hpm suf
  have hold_ne : (alertPat ++ (m ++ [')'])) ≠ [] := by
    intro h
    exact alertPat_ne_nil (List.append_eq_nil.mp h).1
  have hline2 : pre ++ (alertPat ++ (m ++ ')' :: suf))
      = pre ++ (alertPat ++ (m ++ [')'])) ++ suf := by
    simp [List.append_assoc]
  have hsuf_noocc : ∀ j, ¬ (alertPat ++ (m ++ [')'])) <+: suf.drop j := by
    intro j hp
    have hp' : alertPat <+: suf.drop j := (List.prefix_append _ _).trans hp
    have hlift : alertPat <+: (pre ++ (alertPat ++ (m ++ ')' :: suf))).drop
        (pre.length + (alertPat.length + (m.length + (1 + j)))) := by
      rw [List.drop_append, List.drop_append, List.drop_append]
      rw [Nat.add_comm 1 j, List.drop_succ_cons]
      exact hp'
    have h3 := huniq _ hlift
    rw [length_alertPat] at h3
    omega
  have hpre_noocc : ∀ j, j < pre.length →
      ¬ (alertPat ++ (m ++ [')'])) <+: (pre ++ (alertPat ++ (m ++ [')'])) ++ suf).drop j := by
    intro j hj hp
    rw [← hline2] at hp
    have hp' : alertPat <+: (pre ++ (alertPat ++ (m ++ ')' :: suf))).drop j :=
      (List.prefix_append _ _).trans hp
    have := huniq j hp'
    omega
  set hd := toastHdr (pre ++ (alertPat ++ (m ++ ')' :: suf))) with hhd
  rw [processLine_guard_true hg hnc hfind, ← hhd]
  rw [List.append_assoc alertPat m [')'], List.append_assoc hd m [')']]
  rw [hline2]
  rw [replaceAll_hit hold_ne pre suf hpre_noocc]
  rw [replaceAll_no_occ hsuf_noocc]
  simp [List.append_assoc]

theorem processLine_idem (line : List Char)
    (huniq : ∀ j k, alertPat <+: line.drop j → alertPat <+: line.drop k → j = k) :
    processLine (processLine line) = processLine line := by
  by_cases hcond : (containsSub alertPat line && !(containsSub commentPat line)) = true
  · have hg : containsSub alertPat line = true := by
      simpa using (Bool.and_eq_true _ _ |>.mp hcond).1
    have hnc : containsSub commentPat line = false := by
      have := (Bool.and_eq_true _ _ |>.mp hcond).2
      simpa using this
    cases hfind : findAlertMsg line with
    | none =>
      rw [processLine_none hfind, processLine_none hfind]
    | some m =>
      obtain ⟨pre, suf, hshape, hpm⟩ := findAlertMsg_some_shape hfind
      subst hshape
      have huniq' : ∀ j, alertPat <+: (pre ++ (alertPat ++ (m ++ ')' :: suf))).drop j →
          j = pre.length := by
        intro j hj
        exact huniq j pre.length hj
          (by rw [List.drop_left]; exact List.prefix_append _ _)
      have hres := processLine_replaced pre m suf hnc hpm huniq'
      rw [hres]
      obtain ⟨hf1, hf2, hf3, hf4, _⟩ := toastHdr_facts (pre ++ (alertPat ++ (m ++ ')' :: suf)))
      have hnoocc := result_no_occ pre m suf _ hf1 hf2 hf3 hf4 huniq'
      apply processLine_skip
      have : containsSub alertPat
          (pre ++ ((toastHdr (pre ++ (alertPat ++ (m ++ ')' :: suf))) ++ (m ++ [')'])) ++ suf)) = false := by
        rw [Bool.eq_false_iff]
        intro htrue
        obtain ⟨j, hj⟩ := containsSub_iff.mp htrue
        exact hnoocc j hj
      rw [this]
      rfl
  · have h0 : (containsSub alertPat line && !(containsSub commentPat line)) = false :=
      Bool.not_eq_true _ ▸ (by simpa using hcond)
    rw [processLine_skip h0, processLine_skip h0]

theorem processLine_no_nl {line : List Char} (h : '\n' ∉ line) :
    '\n' ∉ processLine line := by
  by_cases hcond : (containsSub alertPat line && !(containsSub commentPat line)) = true
  · cases hfind : findAlertMsg line with
    | none => rw [processLine_none hfind]; exact h
    | some m =>
      have hg : containsSub alertPat line = true := by
        simpa using (Bool.and_eq_true _ _ |>.mp hcond).1
      have hnc : containsSub commentPat line = false := by
        simpa using (Bool.and_eq_true _ _ |>.mp hcond).2
      rw [processLine_guard_true hg hnc hfind]
      intro hmem
      rcases mem_replaceAll hmem with h1 | h2
      · exact h h1
      · obtain ⟨pre, suf, hshape, _⟩ := findAlertMsg_some_shape hfind
        rcases List.mem_append.mp h2 with h3 | h4
        · rcases List.mem_append.mp h3 with h5 | h6
          · exact (toastHdr_facts line).2.2.2.2 h5
          · apply h
            rw [hshape]
            exact List.mem_append.mpr (Or.inr (List.mem_append.mpr (Or.inr
              (List.mem_append.mpr (Or.inl h6)))))
        · simp at h4
  · have h0 : (containsSub alertPat line && !(containsSub commentPat line)) = false := by
      simpa using hcond
    rw [processLine_skip h0]
    exact h

theorem splitOnNl_replace_alerts (s : List Char) :
    splitOnNl (replace_alerts s) = (splitOnNl s).map processLine := by
  unfold replace_alerts
  apply split_join
  · simpa using splitOnNl_ne_nil s
  · intro l hl
    obtain ⟨l0, hl0, rfl⟩ := List.mem_map.mp hl
    exact processLine_no_nl (splitOnNl_no_nl l0 hl0)

/-! ### Claim theorems -/

/-- C1: on every input line whose alert call `callSiteReplace` replaces (the
guard passes and the extraction regex yields the argument `m`), the
replacement is `toast.success(m)` when the line case-insensitively contains a
success keyword and none of fail/error/warning; `toast.error(m)` whenever the
line contains fail/error/warning, even alongside a success keyword (error
classification takes precedence); and `toast.info(m)` otherwise. -/
theorem claim1_severity_classification (line m : List Char)
    (hg : containsSub alertPat line = true)
    (hnc : containsSub commentPat line = false)
    (hm : findAlertMsg line = some m) :
    (is_success line = true ∧ is_error line = false →
      processLine line
        = replaceAll (alertPat ++ m ++ [')']) (toastSuccessHdr ++ m ++ [')']) line) ∧
    (is_error line = true →
      processLine line
        = replaceAll (alertPat ++ m ++ [')']) (toastErrorHdr ++ m ++ [')']) line) ∧
    (is_success line = false ∧ is_error line = false →
      processLine line
        = replaceAll (alertPat ++ m ++ [')']) (toastInfoHdr ++ m ++ [')']) line) := by
  refine ⟨?_, ?_, ?_⟩ <;> intro h <;> rw [processLine_guard_true hg hnc hm] <;> unfold toastHdr
  · rw [if_pos (by simp [h.1, h.2])]
  · rw [if_neg (by simp [h]), if_pos h]
  · rw [if_neg (by simp [h.1]), if_neg (by simp [h.2])]

theorem claim1_severity_classification_witness :
    processLine "alert(\x27Saved!\x27);".toList
      = replaceAll (alertPat ++ "\x27Saved!\x27".toList ++ [')'])
          (toastSuccessHdr ++ "\x27Saved!\x27".toList ++ [')'])
          "alert(\x27Saved!\x27);".toList :=
  (claim1_severity_classification "alert(\x27Saved!\x27);".toList "\x27Saved!\x27".toList
    (by decide) (by decide) (by decide)).1 ⟨by decide, by decide⟩

/-- C2 counterexample: `callSiteReplace` is not idempotent.  On the line
`alert(a); alert(b);` the first pass rewrites only the first call and leaves
`alert(b);` in its output, which the second pass then rewrites, so applying
the transform twice differs from applying it once. -/
theorem claim2_counterexample :
    replace_alerts (replace_alerts "alert(a); alert(b);".toList)
      ≠ replace_alerts "alert(a); alert(b);".toList := by decide

/-- C2 (amended): `callSiteReplace` is idempotent on every input string in
which each line contains at most one occurrence of the substring `alert(`;
after the first pass such a processed line retains no `alert(` occurrence
that the matcher would act on.  (In general idempotence fails: a line with
several alert calls keeps its later `alert(` occurrences after one pass.) -/
theorem claim2_idempotent_of_unique (s : List Char)
    (h : ∀ line ∈ splitOnNl s, ∀ j, j < line.length → ∀ k, k < line.length →
      alertPat.isPrefixOf (line.drop j) = true →
      alertPat.isPrefixOf (line.drop k) = true → j = k) :
    replace_alerts (replace_alerts s) = replace_alerts s := by
  have h1 : replace_alerts (replace_alerts s)
      = joinNl ((splitOnNl (replace_alerts s)).map processLine) := rfl
  rw [h1, splitOnNl_replace_alerts s, List.map_map]
  have h2 : (splitOnNl s).map (processLine ∘ processLine)
      = (splitOnNl s).map processLine := by
    apply List.map_congr_left
    intro line hline
    show processLine (processLine line) = processLine line
    apply processLine_idem
    intro j k hj hk
    exact h line hline j (occ_lt_length alertPat_ne_nil hj)
      k (occ_lt_length alertPat_ne_nil hk)
      (List.isPrefixOf_iff_prefix.mpr hj) (List.isPrefixOf_iff_prefix.mpr hk)
  rw [h2]
  rfl

theorem claim2_idempotent_of_unique_witness :
    replace_alerts (replace_alerts "alert(\x27hi\x27);\ndone".toList)
      = replace_alerts "alert(\x27hi\x27);\ndone".toList :=
  claim2_idempotent_of_unique "alert(\x27hi\x27);\ndone".toList (by decide)

/-- C3 counterexample: the comment guard is a whole-line substring test.  On
the line `alert(a); // alert(b);` the first occurrence of `alert(` is not
preceded by any comment marker, yet because `// alert(` occurs later in the
line the whole line is skipped and no replacement happens, contradicting the
claim that the (uncommented) alert call on such a line is replaced. -/
theorem claim3_counterexample :
    replace_alerts "alert(a); // alert(b);".toList
        = "alert(a); // alert(b);".toList
      ∧ containsSub alertPat "alert(a); // alert(b);".toList = true := by decide

/-- C3 (amended): `callSiteReplace` leaves unchanged every line containing
the literal substring `// alert(` anywhere on the line (in particular the
commented line `// alert('debug');` passes through unchanged), and on a line
containing `alert(` but no `// alert(` it performs the replacement whenever
the extraction regex matches. -/
theorem claim3_comment_guard (line m : List Char) :
    (containsSub commentPat line = true → processLine line = line) ∧
    (containsSub alertPat line = true → containsSub commentPat line = false →
      findAlertMsg line = some m →
      processLine line
        = replaceAll (alertPat ++ m ++ [')']) (toastHdr line ++ m ++ [')']) line) := by
  constructor
  · intro h
    apply processLine_skip
    rw [h]
    simp
  · intro hg hnc hm
    exact processLine_guard_true hg hnc hm

theorem claim3_comment_guard_witness :
    processLine "// alert(\x27debug\x27);".toList = "// alert(\x27debug\x27);".toList :=
  (claim3_comment_guard "// alert(\x27debug\x27);".toList []).1 (by decide)

/-- C4 counterexample: the line `alert("a"); alert("b");` contains the call
`alert("a")` with a double-quoted literal argument and no success or error
keyword anywhere, yet the output of `callSiteReplace` still contains the
substring `alert(`: only the first call is rewritten. -/
theorem claim4_counterexample :
    containsSub alertPat
      (replace_alerts "alert(\x22a\x22); alert(\x22b\x22);".toList) = true := by decide

/-- C4 (amended): for every line of the shape `pre ++ alert( ++ m ++ ) ++ suf`
whose argument `m` contains no `)`, with exactly one occurrence of `alert(`,
without the `// alert(` guard, and containing no success and no error
keyword, the output line is `pre ++ toast.info( ++ m ++ ) ++ suf`: it
contains `toast.info(<m>)` and contains no substring `alert(` at all. -/
theorem claim4_info_rewrite (pre m suf : List Char)
    (hpm : ')' ∉ m)
    (hnc : containsSub commentPat (pre ++ (alertPat ++ (m ++ ')' :: suf))) = false)
    (huniq : ∀ j, j < (pre ++ (alertPat ++ (m ++ ')' :: suf))).length →
      alertPat.isPrefixOf ((pre ++ (alertPat ++ (m ++ ')' :: suf))).drop j) = true →
      j = pre.length)
    (hs : is_success (pre ++ (alertPat ++ (m ++ ')' :: suf))) = false)
    (he : is_error (pre ++ (alertPat ++ (m ++ ')' :: suf))) = false) :
    processLine (pre ++ (alertPat ++ (m ++ ')' :: suf)))
        = pre ++ ((toastInfoHdr ++ (m ++ [')'])) ++ suf) ∧
    (toastInfoHdr ++ (m ++ [')'])) <:+: processLine (pre ++ (alertPat ++ (m ++ ')' :: suf))) ∧
    containsSub alertPat (processLine (pre ++ (alertPat ++ (m ++ ')' :: suf)))) = false := by
  have huniq' : ∀ j, alertPat <+: (pre ++ (alertPat ++ (m ++ ')' :: suf))).drop j →
      j = pre.length := by
    intro j hj
    exact huniq j (occ_lt_length alertPat_ne_nil hj) (List.isPrefixOf_iff_prefix.mpr hj)
  have hhdr : toastHdr (pre ++ (alertPat ++ (m ++ ')' :: suf))) = toastInfoHdr := by
    unfold toastHdr
    rw [if_neg (by simp [hs]), if_neg (by simp [he])]
  have hres := processLine_replaced pre m suf hnc hpm huniq'
  rw [hhdr] at hres
  refine ⟨hres, ?_, ?_⟩
  · rw [hres]
    exact ⟨pre, suf, by simp [List.append_assoc]⟩
  · obtain ⟨hf1, hf2, hf3, hf4, _⟩ := toastHdr_facts (pre ++ (alertPat ++ (m ++ ')' :: suf)))
    rw [hhdr] at hf1 hf2 hf3 hf4
    have hnoocc := result_no_occ pre m suf toastInfoHdr hf1 hf2 hf3 hf4 huniq'
    rw [hres, Bool.eq_false_iff]
    intro htrue
    obtain ⟨j, hj⟩ := containsSub_iff.mp htrue
    exact hnoocc j hj

theorem claim4_info_rewrite_witness :
    processLine ([] ++ (alertPat ++ ("\x22hi\x22".toList ++ ')' :: ";".toList)))
      = "toast.info(\x22hi\x22);".toList :=
  (claim4_info_rewrite [] "\x22hi\x22".toList ";".toList
    (by decide) (by decide) (by decide) (by decide) (by decide)).1.trans (by decide)

/-- C9: on every line where the argument-extraction regex fails to match
(`findAlertMsg` returns `none`, for instance when no closing parenthesis
follows `alert(` on the line), `callSiteReplace` passes the line through
unchanged. -/
theorem claim9_regex_fail_passthrough (line : List Char)
    (_hc : containsSub alertPat line = true)
    (h : findAlertMsg line = none) : processLine line = line :=
  processLine_none h

theorem claim9_regex_fail_passthrough_witness :
    processLine "alert(\x27oops\x27".toList = "alert(\x27oops\x27".toList :=
  claim9_regex_fail_passthrough "alert(\x27oops\x27".toList (by decide) (by decide)

/-- C10: `callSiteReplace` preserves the line structure: the output has
exactly as many newline-delimited lines as the input, the line at every
position of the output is the per-line transform of the input line at the
same position, and the output is these lines rejoined with single
newlines. -/
theorem claim10_line_structure (s : List Char) :
    splitOnNl (replace_alerts s) = (splitOnNl s).map processLine ∧
    (splitOnNl (replace_alerts s)).length = (splitOnNl s).length ∧
    replace_alerts s = joinNl ((splitOnNl s).map processLine) := by
  refine ⟨splitOnNl_replace_alerts s, ?_, rfl⟩
  rw [splitOnNl_replace_alerts s, List.length_map]

/-! ### Facts about the import scanner -/

theorem matchEndAt_gt {s : List Char} {i e : Nat} (h : matchEndAt s i = some e) :
    i < e := by
  unfold matchEndAt at h
  by_cases h1 : importKw.isPrefixOf (s.drop i)
  · rw [if_pos h1] at h
    by_cases h2 : wsLen s i = 0
    · rw [if_pos h2] at h
      exact absurd h (by simp)
    · rw [if_neg h2] at h
      by_cases h3 : (lineSeg s (i + 6 + wsLen s i)).getLast? = some ';'
      · rw [if_pos h3] at h
        injection h with h4
        omega
      · rw [if_neg h3] at h
        exact absurd h (by simp)
  · rw [if_neg h1] at h
    exact absurd h (by simp)

theorem scanImportsF_out {s : List Char} {p : Nat} (hp : s.length < p) :
    ∀ f, scanImportsF s f p = [] := by
  intro f
  cases f with
  | zero => rfl
  | succ f =>
    rw [scanImportsF, if_neg (by omega)]

theorem scanImportsF_fuel {s : List Char} :
    ∀ (f f' p : Nat), s.length + 1 - p ≤ f → s.length + 1 - p ≤ f' →
      scanImportsF s f p = scanImportsF s f' p := by
  intro f
  induction f with
  | zero =>
    intro f' p hf _
    rw [scanImportsF_out (by omega), scanImportsF_out (by omega)]
  | succ f ih =>
    intro f' p hf hf'
    by_cases hp : p ≤ s.length
    · match f' with
      | 0 => omega
      | f2 + 1 =>
        rw [scanImportsF, scanImportsF, if_pos hp, if_pos hp]
        rcases hm : (if lineStartAt s p then matchEndAt s p else none) with _ | e
        · exact ih f2 (p + 1) (by omega) (by omega)
        · have he : p < e := by
            by_cases hls : lineStartAt s p
            · rw [if_pos hls] at hm
              exact matchEndAt_gt hm
            · rw [if_neg hls] at hm
              exact absurd hm (by simp)
          show (p, e) :: scanImportsF s f e = (p, e) :: scanImportsF s f2 e
          rw [ih f2 e (by omega) (by omega)]
    · rw [scanImportsF_out (by omega), scanImportsF_out (by omega)]

theorem scanImportsF_mem {s : List Char} :
    ∀ (f p : Nat) (st e : Nat), (st, e) ∈ scanImportsF s f p →
      lineStartAt s st = true ∧ matchEndAt s st = some e := by
  intro f
  induction f with
  | zero =>
    intro p st e h
    simp [scanImportsF] at h
  | succ f ih =>
    intro p st e h
    rw [scanImportsF] at h
    by_cases hp : p ≤ s.length
    · rw [if_pos hp] at h
      rcases hm : (if lineStartAt s p then matchEndAt s p else none) with _ | e'
      · rw [hm] at h
        exact ih _ _ _ h
      · rw [hm] at h
        rcases List.mem_cons.mp h with h1 | h2
        · have hst : st = p ∧ e = e' := Prod.mk.injEq st e p e' ▸ h1
          by_cases hls : lineStartAt s p
          · rw [if_pos hls] at hm
            exact ⟨hst.1 ▸ hls, by rw [hst.1, hm, hst.2]⟩
          · rw [if_neg hls] at hm
            exact absurd hm (by simp)
        · exact ih _ _ _ h2
    · rw [if_neg hp] at h
      simp at h

theorem scanImports_mem {s : List Char} {st e : Nat}
    (h : (st, e) ∈ scanImports s 0) :
    lineStartAt s st = true ∧ matchEndAt s st = some e :=
  scanImportsF_mem _ _ _ _ h

theorem drop_takeWhile_length (p : Char → Bool) (l : List Char) :
    l.drop (l.takeWhile p).length = l.dropWhile p := by
  induction l with
  | nil => rfl
  | cons c rest ih =>
    rw [List.takeWhile_cons, List.dropWhile_cons]
    by_cases hc : p c
    · simp only [hc, if_pos, List.length_cons, List.drop_succ_cons]
      exact ih
    · simp [hc]

/-- A match of the import pattern ends at the end of its line: the text
after the match end is empty or starts with a newline. -/
theorem matchEndAt_line_end {s : List Char} {i e : Nat}
    (h : matchEndAt s i = some e) :
    s.drop e = [] ∨ (s.drop e).head? = some '\n' := by
  unfold matchEndAt at h
  by_cases h1 : importKw.isPrefixOf (s.drop i)
  · rw [if_pos h1] at h
    by_cases h2 : wsLen s i = 0
    · rw [if_pos h2] at h
      exact absurd h (by simp)
    · rw [if_neg h2] at h
      by_cases h3 : (lineSeg s (i + 6 + wsLen s i)).getLast? = some ';'
      · rw [if_pos h3] at h
        injection h with h4
        have hdrop : s.drop e
            = (s.drop (i + 6 + wsLen s i)).dropWhile (fun c => c != '\n') := by
          rw [← h4]
          have h5 : s.drop (i + 6 + wsLen s i + (lineSeg s (i + 6 + wsLen s i)).length)
              = (s.drop (i + 6 + wsLen s i)).drop (lineSeg s (i + 6 + wsLen s i)).length := by
            rw [List.drop_drop]
          rw [h5]
          exact drop_takeWhile_length _ _
        rw [hdrop]
        rcases hh : ((s.drop (i + 6 + wsLen s i)).dropWhile (fun c => c != '\n')).head? with _ | c
        · left
          exact List.head?_eq_none_iff.mp hh
        · right
          have h6 := List.head?_dropWhile_not (fun c => c != '\n') (s.drop (i + 6 + wsLen s i))
          rw [hh] at h6
          simp only [bne_eq_false_iff_eq] at h6
          rw [h6]
      · rw [if_neg h3] at h
        exact absurd h (by simp)
  · rw [if_neg h1] at h
    exact absurd h (by simp)

/-! ### Claim theorems for `importEnsure` -/

/-- C5: for every content without an accepted toast-import spelling on which
the import pattern `^import\s+.*?;$` has at least one match (the last one
being `(st, e)`), `importEnsure` inserts the new line
`import { toast } from '../shared/utils/toast';` (preceded by a newline)
exactly at position `e`, which lies at the end of the last import line
(end of content or just before a newline); all other text is unchanged. -/
theorem claim5_insert_after_last_import (content : List Char) (st e : Nat)
    (h1 : hasToastImport content = false)
    (h2 : (scanImports content 0).getLast? = some (st, e)) :
    add_toast_import content = content.take e ++ toastImportIns ++ content.drop e ∧
    (content.drop e = [] ∨ (content.drop e).head? = some '\n') := by
  constructor
  · unfold add_toast_import
    rw [if_neg (by rw [h1]; simp), h2]
  · have hmem : (st, e) ∈ scanImports content 0 :=
      List.mem_of_mem_getLast? (Option.mem_def.mpr h2)
    exact matchEndAt_line_end (scanImports_mem hmem).2

theorem claim5_insert_after_last_import_witness :
    add_toast_import "import a;\nx".toList
      = ("import a;\nx".toList).take 9 ++ toastImportIns ++ ("import a;\nx".toList).drop 9 :=
  (claim5_insert_after_last_import "import a;\nx".toList 0 9 (by decide) (by decide)).1

/-- C6: `importEnsure` is the identity both on every content that already
contains the spelling `import { toast }` and on every content on which
the import pattern has no match at all (no import line is synthesized). -/
theorem claim6_identity_cases (content : List Char) :
    (containsSub "import \x7b toast \x7d".toList content = true →
      add_toast_import content = content) ∧
    (scanImports content 0 = [] → add_toast_import content = content) := by
  constructor
  · intro h
    unfold add_toast_import
    rw [if_pos (by unfold hasToastImport; rw [h]; simp)]
  · intro h
    unfold add_toast_import
    by_cases hti : hasToastImport content
    · rw [if_pos hti]
    · rw [if_neg hti, h]
      rfl

theorem claim6_identity_cases_witness :
    add_toast_import "import \x7b toast \x7d from \x27./t\x27;\nx".toList
        = "import \x7b toast \x7d from \x27./t\x27;\nx".toList ∧
    add_toast_import "const x = 1;".toList = "const x = 1;".toList :=
  ⟨(claim6_identity_cases "import \x7b toast \x7d from \x27./t\x27;\nx".toList).1 (by decide),
    (claim6_identity_cases "const x = 1;".toList).2 (by decide)⟩

/-! ### Claim theorems for `processFile` and `run` -/

/-- C7: `processFile` returns true exactly when the read and the write both
succeed (the in-memory transforms are total functions and always succeed);
on any caught failure it returns false together with an error log line
naming the path, and the on-disk state is left untouched — the write is the
only step that modifies the filesystem and it runs only after the whole
in-memory transform pipeline. -/
theorem claim7_process_file (fs : FileSys) (p : String) :
    ((process_file fs p).1 = true ↔ (readFile fs p).isSome = true ∧ fs.canWrite p = true) ∧
    ((process_file fs p).1 = false → (process_file fs p).2.1 = fs) := by
  unfold process_file
  cases hr : readFile fs p with
  | none => simp
  | some c =>
    unfold writeFile
    by_cases hw : fs.canWrite p
    · simp [hw]
    · simp [hw]

theorem claim7_process_file_witness :
    (process_file roFS "/a").2.1 = roFS :=
  (claim7_process_file roFS "/a").2 (by rfl)

/-- C8: the run loop folds over the file list in order; a path that does not
exist contributes a `File not found` log line and leaves the success counter
unchanged; and the printed output always ends with the summary line
`Completed! Processed X/N files`, where X is the final success counter and N
is the length of the path list — 16 for the compiled-in list of `main`. -/
theorem claim8_run_summary (fs : FileSys) (paths : List String) :
    (mainOutput fs paths).getLast? = some (summaryLine (mainRun fs paths).1 paths.length) ∧
    (∀ n fs2 log p, fs2.files p = none →
      runStep (n, fs2, log) p = (n, fs2, log ++ [notFoundLine p])) ∧
    (main fs).1.getLast? = some (summaryLine (mainRun fs files_to_update).1 16) := by
  refine ⟨?_, ?_, ?_⟩
  · unfold mainOutput
    exact List.getLast?_concat _
  · intro n fs2 log p h
    unfold runStep
    simp [h]
  · unfold main mainOutput
    exact List.getLast?_concat _

theorem claim8_run_summary_witness :
    runStep (0, emptyFS, []) "/missing" = (0, emptyFS, [] ++ [notFoundLine "/missing"]) :=
  (claim8_run_summary emptyFS []).2.1 0 emptyFS [] "/missing" rfl

example : replace_alerts "alert(\x27Saved successfully!\x27);".toList

    = "toast.success(\x27Saved successfully!\x27);".toList := by decide

example : replace_alerts "alert(\x27Error: could not save\x27);".toList
    = "toast.error(\x27Error: could not save\x27);".toList := by decide

example : replace_alerts "// alert(\x27debug\x27);".toList
    = "// alert(\x27debug\x27);".toList := by decide

example : replace_alerts "alert(\x22hi\x22); x".toList
    = "toast.info(\x22hi\x22); x".toList := by decide

end ReplaceAlerts
